import Mathlib

/-!
Verification of the configdrift-scheduledconfigcheck specification against
`src/main.py`. The program's data values (parsed YAML/JSON documents) are
embedded as the inductive type `Value`; a Python object that may be `None`
is embedded as `Option Value`, with `none` standing for Python `None`.
The third-party libraries the source calls (`yaml.safe_load`, `json.loads`,
`deepdiff.DeepDiff`) are not part of the repository, so they are modelled
from the specification, restricted to executable fragments; each model's
doc comment states the fragment.
-/

namespace ConfigDrift

/-- The canonical in-memory tree for parsed configuration documents
(spec section 3, CanonicalNode): scalars (bool, int, string), sequences
and mappings with string keys. Python `None` is not a `Value`; a possibly
null Python object is `Option Value`. -/
inductive Value where
  | bool : Bool → Value
  | int : Int → Value
  | str : String → Value
  | list : List Value → Value
  | dict : List (String × Value) → Value

mutual

/-- Structural equality test on `Value` trees. -/
def Value.beq : Value → Value → Bool
  | .bool a, .bool b => a == b
  | .int a, .int b => a == b
  | .str a, .str b => a == b
  | .list xs, .list ys => Value.beqList xs ys
  | .dict es, .dict fs => Value.beqEntries es fs
  | _, _ => false

/-- Structural equality test on lists of `Value` trees. -/
def Value.beqList : List Value → List Value → Bool
  | [], [] => true
  | x :: xs, y :: ys => Value.beq x y && Value.beqList xs ys
  | _, _ => false

/-- Structural equality test on mapping entry lists. -/
def Value.beqEntries : List (String × Value) → List (String × Value) → Bool
  | [], [] => true
  | (k, v) :: es, (l, w) :: fs => k == l && Value.beq v w && Value.beqEntries es fs
  | _, _ => false

end

mutual

theorem Value.beq_iff : ∀ a b : Value, Value.beq a b = true ↔ a = b
  | .bool a, .bool b => by simp [Value.beq]
  | .int a, .int b => by simp [Value.beq]
  | .str a, .str b => by simp [Value.beq]
  | .list xs, .list ys => by
    simp only [Value.beq, Value.list.injEq]
    exact Value.beqList_iff xs ys
  | .dict es, .dict fs => by
    simp only [Value.beq, Value.dict.injEq]
    exact Value.beqEntries_iff es fs
  | .bool _, .int _ | .bool _, .str _ | .bool _, .list _ | .bool _, .dict _
  | .int _, .bool _ | .int _, .str _ | .int _, .list _ | .int _, .dict _
  | .str _, .bool _ | .str _, .int _ | .str _, .list _ | .str _, .dict _
  | .list _, .bool _ | .list _, .int _ | .list _, .str _ | .list _, .dict _
  | .dict _, .bool _ | .dict _, .int _ | .dict _, .str _ | .dict _, .list _ => by
    simp [Value.beq]

theorem Value.beqList_iff : ∀ xs ys : List Value, Value.beqList xs ys = true ↔ xs = ys
  | [], [] => by simp [Value.beqList]
  | x :: xs, y :: ys => by
    simp only [Value.beqList, Bool.and_eq_true, List.cons.injEq]
    exact and_congr (Value.beq_iff x y) (Value.beqList_iff xs ys)
  | [], _ :: _ => by simp [Value.beqList]
  | _ :: _, [] => by simp [Value.beqList]

theorem Value.beqEntries_iff :
    ∀ es fs : List (String × Value), Value.beqEntries es fs = true ↔ es = fs
  | [], [] => by simp [Value.beqEntries]
  | (k, v) :: es, (l, w) :: fs => by
    simp only [Value.beqEntries, Bool.and_eq_true, List.cons.injEq, Prod.mk.injEq]
    rw [Value.beq_iff v w, Value.beqEntries_iff es fs, beq_iff_eq, and_assoc]
  | [], _ :: _ => by simp [Value.beqEntries]
  | _ :: _, [] => by simp [Value.beqEntries]

end

instance : DecidableEq Value := fun a b => decidable_of_iff _ (Value.beq_iff a b)

instance {ε α : Type} [DecidableEq ε] [DecidableEq α] : DecidableEq (Except ε α) :=
  fun a b =>
    match a, b with
    | .ok x, .ok y =>
      if h : x = y then isTrue (by rw [h]) else isFalse (by simp [h])
    | .error x, .error y =>
      if h : x = y then isTrue (by rw [h]) else isFalse (by simp [h])
    | .ok _, .error _ => isFalse (by simp)
    | .error _, .ok _ => isFalse (by simp)

/-! ### Character-level utilities shared by the parser models -/

/-- Whitespace characters recognised by the parser models. -/
def isWsChar (c : Char) : Bool := c = ' ' || c = '\n' || c = '\t' || c = '\r'

/-- Strip leading and trailing whitespace from a character list. -/
def trimChars (cs : List Char) : List Char :=
  ((cs.dropWhile isWsChar).reverse.dropWhile isWsChar).reverse

/-- Python `str.strip`, used by `run_command` on the command output. -/
def stripString (s : String) : String := ⟨trimChars s.data⟩

/-- ASCII lowercasing of one character, modelling Python `str.lower`
on the ASCII file names the program handles. -/
def lowerChar (c : Char) : Char :=
  if 65 ≤ c.toNat ∧ c.toNat ≤ 90 then Char.ofNat (c.toNat + 32) else c

/-- `hasSuffix cs suf` holds when `suf` is a suffix of `cs`, modelling
Python `str.endswith`. -/
def hasSuffix (cs suf : List Char) : Bool := suf.reverse.isPrefixOf cs.reverse

/-- Decimal digit test. -/
def isDigitChar (c : Char) : Bool := c.isDigit

/-- Value of a digit string. -/
def digitsToNat (ds : List Char) : Nat := ds.foldl (fun n c => 10 * n + (c.toNat - 48)) 0

/-- An optionally negated nonempty digit string (the integer literals of the
parser fragments). -/
def intLit (cs : List Char) : Bool :=
  match cs with
  | [] => false
  | c :: ds =>
    if c = '-' then !ds.isEmpty && ds.all isDigitChar
    else (c :: ds).all isDigitChar

/-- Integer value of an `intLit` literal. -/
def intVal (cs : List Char) : Int :=
  match cs with
  | [] => 0
  | c :: ds =>
    if c = '-' then -(digitsToNat ds : Int) else (digitsToNat (c :: ds) : Int)

/-! ### JSON parser model

Modelled from the spec: the `json.loads` library call used by
`load_baseline` and `format_output` is not repository code. The model is a
strict recursive-descent parser for the JSON fragment used here: `null`,
booleans, integers, escape-free strings, arrays and objects (with non-null
members, since a nested Python `None` is outside the `Value` embedding).
Inputs outside the fragment are rejected, matching the library's strictness
on every input this development evaluates. -/

/-- Skip JSON whitespace. -/
def skipWsJ (cs : List Char) : List Char := cs.dropWhile isWsChar

mutual

/-- Parse one JSON value; `none` in the result's first component is JSON
`null` (Python `None`). Fuel bounds the recursion. -/
def pJson : Nat → List Char → Option (Option Value × List Char)
  | 0, _ => none
  | fuel + 1, cs =>
    match skipWsJ cs with
    | 'n' :: 'u' :: 'l' :: 'l' :: rest => some (none, rest)
    | 't' :: 'r' :: 'u' :: 'e' :: rest => some (some (Value.bool true), rest)
    | 'f' :: 'a' :: 'l' :: 's' :: 'e' :: rest => some (some (Value.bool false), rest)
    | '"' :: rest =>
      let tok := rest.takeWhile (fun c => !(c = '"' || c = '\\'))
      (match rest.drop tok.length with
       | '"' :: rest2 => some (some (Value.str ⟨tok⟩), rest2)
       | _ => none)
    | '[' :: rest =>
      (match skipWsJ rest with
       | ']' :: rest2 => some (some (Value.list []), rest2)
       | _ => match pArr fuel (skipWsJ rest) with
              | some (items, rest2) => some (some (Value.list items), rest2)
              | none => none)
    | '{' :: rest =>
      (match skipWsJ rest with
       | '}' :: rest2 => some (some (Value.dict []), rest2)
       | _ => match pObj fuel (skipWsJ rest) with
              | some (fields, rest2) => some (some (Value.dict fields), rest2)
              | none => none)
    | '-' :: rest =>
      let ds := rest.takeWhile isDigitChar
      if ds.isEmpty then none
      else some (some (Value.int (-(digitsToNat ds : Int))), rest.drop ds.length)
    | c :: rest =>
      if isDigitChar c then
        let ds := (c :: rest).takeWhile isDigitChar
        some (some (Value.int (digitsToNat ds)), (c :: rest).drop ds.length)
      else none
    | [] => none

/-- Parse the items of a nonempty JSON array, up to and including `]`. -/
def pArr : Nat → List Char → Option (List Value × List Char)
  | 0, _ => none
  | fuel + 1, cs =>
    match pJson fuel cs with
    | some (some v, rest) =>
      (match skipWsJ rest with
       | ']' :: rest2 => some ([v], rest2)
       | ',' :: rest2 =>
         (match pArr fuel rest2 with
          | some (items, rest3) => some (v :: items, rest3)
          | none => none)
       | _ => none)
    | _ => none

/-- Parse the members of a nonempty JSON object, up to and including `}`. -/
def pObj : Nat → List Char → Option (List (String × Value) × List Char)
  | 0, _ => none
  | fuel + 1, cs =>
    match skipWsJ cs with
    | '"' :: rest =>
      let tok := rest.takeWhile (fun c => !(c = '"' || c = '\\'))
      (match rest.drop tok.length with
       | '"' :: rest2 =>
         (match skipWsJ rest2 with
          | ':' :: rest3 =>
            (match pJson fuel rest3 with
             | some (some v, rest4) =>
               (match skipWsJ rest4 with
                | '}' :: rest5 => some ([(⟨tok⟩, v)], rest5)
                | ',' :: rest5 =>
                  (match pObj fuel rest5 with
                   | some (fields, rest6) => some ((⟨tok⟩, v) :: fields, rest6)
                   | none => none)
                | _ => none)
             | _ => none)
          | _ => none)
       | _ => none)
    | _ => none

end

/-- Modelled from the spec: `json.loads`. Returns `Except.error ()` where the
library raises `json.JSONDecodeError`, and `Except.ok o` where it returns the
Python object `o` (`none` = Python `None`, i.e. a JSON `null` document). -/
def jsonLoads (s : String) : Except Unit (Option Value) :=
  match pJson (s.data.length + 1) s.data with
  | some (v, rest) => if (skipWsJ rest).isEmpty then .ok v else .error ()
  | none => .error ()

/-! ### YAML parser model

Modelled from the spec: the `yaml.safe_load` library call used by
`load_baseline` and `format_output` is not repository code. The model covers
the YAML fragment this development evaluates: the empty/null document
(yielding Python `None`), boolean words, integer literals, plain one-word
scalars, single-level block mappings `key: value` (one per line, scalar
values), and JSON-style flow sequences/mappings. Inputs outside the fragment
are rejected; every concrete input used in a theorem below is one on which
the library behaves as the model does. -/

/-- YAML spellings of the null document. -/
def yamlNullWord (cs : List Char) : Bool :=
  cs = "null".data || cs = "Null".data || cs = "NULL".data || cs = "~".data

/-- YAML spellings of `true`. -/
def yamlTrueWord (cs : List Char) : Bool :=
  cs = "true".data || cs = "True".data || cs = "TRUE".data

/-- YAML spellings of `false`. -/
def yamlFalseWord (cs : List Char) : Bool :=
  cs = "false".data || cs = "False".data || cs = "FALSE".data

/-- Characters allowed in a plain (unquoted) one-word YAML scalar in the
modelled fragment. -/
def plainChar (c : Char) : Bool := c.isAlphanum || c = '_' || c = '-' || c = '.'

/-- A plain one-word scalar: nonempty, made only of `plainChar`s, and not
containing a float-like shape the fragment excludes. -/
def plainWord (cs : List Char) : Bool := !cs.isEmpty && cs.all plainChar

/-- Parse one trimmed, nonempty, non-null YAML scalar token. -/
def yamlScalarTok (cs : List Char) : Except Unit Value :=
  if yamlTrueWord cs then .ok (Value.bool true)
  else if yamlFalseWord cs then .ok (Value.bool false)
  else if intLit cs then .ok (Value.int (intVal cs))
  else if plainWord cs then .ok (Value.str ⟨cs⟩)
  else .error ()

/-- Split a character list at newlines. -/
def splitLines : List Char → List (List Char)
  | [] => [[]]
  | c :: rest =>
    if c = '\n' then [] :: splitLines rest
    else
      match splitLines rest with
      | l :: ls => (c :: l) :: ls
      | [] => [[c]]

/-- Parse one `key: value` line of a block mapping: a plain-word key, a
colon, a space, then a scalar value (non-null in the fragment). -/
def yamlMapLine (cs : List Char) : Except Unit (String × Value) :=
  let key := cs.takeWhile (fun c => !(c = ':'))
  if !plainWord key then .error ()
  else
    match cs.drop key.length with
    | ':' :: ' ' :: rest =>
      let val := trimChars rest
      if val.isEmpty || yamlNullWord val then .error ()
      else
        match yamlScalarTok val with
        | .ok v => .ok (⟨key⟩, v)
        | .error _ => .error ()
    | _ => .error ()

/-- Parse every line of a block mapping. -/
def yamlMapLines : List (List Char) → Except Unit (List (String × Value))
  | [] => .ok []
  | l :: ls =>
    match yamlMapLine l, yamlMapLines ls with
    | .ok e, .ok es => .ok (e :: es)
    | _, _ => .error ()

/-- Modelled from the spec: `yaml.safe_load`. Returns `Except.error ()` where
the library raises `yaml.YAMLError`, and `Except.ok o` where it returns the
Python object `o` (`none` = Python `None`, produced by the empty document and
the null words). -/
def yamlSafeLoad (s : String) : Except Unit (Option Value) :=
  let cs := trimChars s.data
  if cs.isEmpty then .ok none
  else if yamlNullWord cs then .ok none
  else if cs.head? = some '[' || cs.head? = some '{' then
    match pJson (cs.length + 1) cs with
    | some (v, rest) => if (skipWsJ rest).isEmpty then .ok v else .error ()
    | none => .error ()
  else
    let lines := ((splitLines cs).map trimChars).filter (fun l => !l.isEmpty)
    if lines.all (fun l => l.contains ':') then
      match yamlMapLines lines with
      | .ok es => .ok (some (Value.dict es))
      | .error _ => .error ()
    else
      match lines with
      | [l] =>
        (match yamlScalarTok l with
         | .ok v => .ok (some v)
         | .error _ => .error ())
      | _ => .error ()

/-! ### The DocumentParser and baseline loader from `src/main.py` -/

/-- The `--format` command-line choice (`choices=['yaml','json']`). -/
inductive Fmt where
  | yaml
  | json
deriving DecidableEq

/-- Run a parser call as the source's `try`/`except` blocks do: a raised
parse error is caught and turned into a `None` return, and a successful
parse returns the parsed Python object (which is itself `None` for a null
document). -/
def collapse : Except Unit (Option Value) → Option Value
  | .ok v => v
  | .error _ => none

/-- `format_output` from `src/main.py` (lines 157-194): with an explicit
format it parses strictly in that format; with no format it attempts YAML
first and falls back to JSON; every failure path returns `None`. -/
def format_output (config_string : String) (format : Option Fmt) : Option Value :=
  match format with
  | some Fmt.yaml => collapse (yamlSafeLoad config_string)
  | some Fmt.json => collapse (jsonLoads config_string)
  | none =>
    match yamlSafeLoad config_string with
    | .ok v => v
    | .error _ =>
      match jsonLoads config_string with
      | .ok v => v
      | .error _ => none

/-- Format selection in `load_baseline` (lines 88-94): an explicit format
wins; otherwise the lowercased path's extension picks `.yaml`/`.yml` → YAML,
`.json` → JSON, and anything else defaults to YAML. -/
def resolveFormat (baseline_path : String) (format : Option Fmt) : Fmt :=
  match format with
  | some f => f
  | none =>
    let p := baseline_path.data.map lowerChar
    if hasSuffix p ".yaml".data || hasSuffix p ".yml".data then Fmt.yaml
    else if hasSuffix p ".json".data then Fmt.json
    else Fmt.yaml

/-- `load_baseline` from `src/main.py` (lines 66-119). The file read or HTTP
GET is an external collaborator; its outcome enters as `content`, with `none`
standing for `FileNotFoundError` or a `requests` failure. The resolved format
is then parsed strictly — there is no cross-format fallback here — and every
failure path returns `None`. -/
def load_baseline (baseline_path : String) (format : Option Fmt)
    (content : Option String) : Option Value :=
  match content with
  | none => none
  | some text =>
    match resolveFormat baseline_path format with
    | Fmt.yaml => collapse (yamlSafeLoad text)
    | Fmt.json => collapse (jsonLoads text)

/-- `run_command` from `src/main.py` (lines 38-64): the spawned process is an
external collaborator; a nonzero return code yields `None`, success yields
the stripped standard output. -/
def run_command (returncode : Int) (output : String) : Option String :=
  if returncode = 0 then some (stripString output) else none

/-! ### A total order on `Value`

The DiffEngine model treats sequences as multisets of canonical sub-trees
(spec section 4.2 step 3). Canonical forms are computed by recursively
sorting sequence items and mapping entries, which needs a total order on
trees; `vcmp` below is a structural lexicographic comparison. -/

/-- Comparison derived from a linear order. -/
def cmpo {α : Type} [LinearOrder α] (a b : α) : Ordering :=
  if a < b then .lt else if a = b then .eq else .gt

/-- Lexicographic comparison of character lists. -/
def lccmp : List Char → List Char → Ordering
  | [], [] => .eq
  | [], _ :: _ => .lt
  | _ :: _, [] => .gt
  | a :: as, b :: bs => (cmpo a b).then (lccmp as bs)

/-- Comparison of strings through their character lists. -/
def scmp (a b : String) : Ordering := lccmp a.data b.data

/-- Constructor kind of a `Value`, ordered bool < int < str < list < dict. -/
def vtag : Value → Nat
  | .bool _ => 0
  | .int _ => 1
  | .str _ => 2
  | .list _ => 3
  | .dict _ => 4

mutual

/-- Comparison of two trees of the same constructor kind (trees of
different kinds are already separated by `vtag`; those cases answer `eq`
and are never reached through `vcmp`). -/
def vcmpSame : Value → Value → Ordering
  | .bool a, .bool b => cmpo a b
  | .int a, .int b => cmpo a b
  | .str a, .str b => scmp a b
  | .list xs, .list ys => vcmpList xs ys
  | .dict es, .dict fs => vcmpEntries es fs
  | _, _ => .eq

/-- Lexicographic comparison of `Value` lists. -/
def vcmpList : List Value → List Value → Ordering
  | [], [] => .eq
  | [], _ :: _ => .lt
  | _ :: _, [] => .gt
  | x :: xs, y :: ys =>
    ((cmpo (vtag x) (vtag y)).then (vcmpSame x y)).then (vcmpList xs ys)

/-- Lexicographic comparison of mapping entry lists (key first). -/
def vcmpEntries : List (String × Value) → List (String × Value) → Ordering
  | [], [] => .eq
  | [], _ :: _ => .lt
  | _ :: _, [] => .gt
  | (k, v) :: es, (l, w) :: fs =>
    (scmp k l).then (((cmpo (vtag v) (vtag w)).then (vcmpSame v w)).then (vcmpEntries es fs))

end

/-- Total structural comparison of `Value` trees: constructor kind first,
then the same-kind lexicographic comparison. -/
def vcmp (a b : Value) : Ordering := (cmpo (vtag a) (vtag b)).then (vcmpSame a b)

/-! ### Order lemmas for `vcmp` -/

theorem then_eq_lt {o₁ o₂ : Ordering} :
    o₁.then o₂ = .lt ↔ o₁ = .lt ∨ (o₁ = .eq ∧ o₂ = .lt) := by
  cases o₁ <;> cases o₂ <;> simp [Ordering.then]

theorem then_eq_eq {o₁ o₂ : Ordering} :
    o₁.then o₂ = .eq ↔ o₁ = .eq ∧ o₂ = .eq := by
  cases o₁ <;> cases o₂ <;> simp [Ordering.then]

theorem swap_then (o₁ o₂ : Ordering) :
    (o₁.then o₂).swap = o₁.swap.then o₂.swap := by
  cases o₁ <;> cases o₂ <;> rfl

theorem cmpo_self {α : Type} [LinearOrder α] (a : α) : cmpo a a = .eq := by
  simp [cmpo]

theorem cmpo_eq_iff {α : Type} [LinearOrder α] {a b : α} :
    cmpo a b = .eq ↔ a = b := by
  unfold cmpo
  rcases lt_trichotomy a b with h | h | h
  · simp [h, ne_of_lt h]
  · simp [h]
  · simp [not_lt_of_gt h, ne_of_gt h]

theorem cmpo_lt_iff {α : Type} [LinearOrder α] {a b : α} :
    cmpo a b = .lt ↔ a < b := by
  unfold cmpo
  rcases lt_trichotomy a b with h | h | h
  · simp [h]
  · simp [h, lt_irrefl]
  · simp [not_lt_of_gt h, ne_of_gt h, not_lt_of_gt h]

theorem cmpo_swap {α : Type} [LinearOrder α] (a b : α) :
    (cmpo a b).swap = cmpo b a := by
  unfold cmpo
  rcases lt_trichotomy a b with h | h | h
  · rw [if_pos h, if_neg (not_lt_of_gt h), if_neg (ne_of_gt h)]
    rfl
  · subst h
    simp [Ordering.swap]
  · rw [if_neg (not_lt_of_gt h), if_neg (ne_of_gt h), if_pos h]
    rfl

theorem cmpo_lt_trans {α : Type} [LinearOrder α] {a b c : α}
    (h₁ : cmpo a b = .lt) (h₂ : cmpo b c = .lt) : cmpo a c = .lt :=
  cmpo_lt_iff.mpr (lt_trans (cmpo_lt_iff.mp h₁) (cmpo_lt_iff.mp h₂))

theorem lccmp_self (cs : List Char) : lccmp cs cs = .eq := by
  induction cs with
  | nil => rfl
  | cons c cs ih => simp [lccmp, cmpo_self, ih, Ordering.then]

theorem lccmp_eq_iff : ∀ {as bs : List Char}, lccmp as bs = .eq ↔ as = bs
  | [], [] => by simp [lccmp]
  | [], _ :: _ => by simp [lccmp]
  | _ :: _, [] => by simp [lccmp]
  | a :: as, b :: bs => by
    rw [lccmp, then_eq_eq]
    simp only [List.cons.injEq]
    exact and_congr cmpo_eq_iff lccmp_eq_iff

theorem lccmp_swap : ∀ as bs : List Char, (lccmp as bs).swap = lccmp bs as
  | [], [] => rfl
  | [], _ :: _ => rfl
  | _ :: _, [] => rfl
  | a :: as, b :: bs => by
    rw [lccmp, lccmp, swap_then, cmpo_swap, lccmp_swap as bs]

theorem lccmp_lt_trans :
    ∀ {as bs cs : List Char}, lccmp as bs = .lt → lccmp bs cs = .lt → lccmp as cs = .lt
  | [], _ :: _, _ :: _, _, _ => by simp [lccmp]
  | [], [], _ :: _, _, _ => by simp [lccmp]
  | a :: as, b :: bs, c :: cs, h₁, h₂ => by
    rw [lccmp, then_eq_lt] at h₁ h₂ ⊢
    rcases h₁ with h₁ | ⟨h₁e, h₁t⟩
    · rcases h₂ with h₂ | ⟨h₂e, h₂t⟩
      · exact Or.inl (cmpo_lt_trans h₁ h₂)
      · rw [cmpo_eq_iff] at h₂e
        subst h₂e
        exact Or.inl h₁
    · rw [cmpo_eq_iff] at h₁e
      subst h₁e
      rcases h₂ with h₂ | ⟨h₂e, h₂t⟩
      · exact Or.inl h₂
      · rw [cmpo_eq_iff] at h₂e
        subst h₂e
        exact Or.inr ⟨cmpo_self a, lccmp_lt_trans h₁t h₂t⟩
  | [], [], [], h₁, _ => by simp [lccmp] at h₁
  | _ :: _, [], _, h₁, _ => by simp [lccmp] at h₁
  | [] , _ :: _, [], _, h₂ => by simp [lccmp] at h₂
  | _ :: _, _ :: _, [], _, h₂ => by simp [lccmp] at h₂

theorem scmp_self (s : String) : scmp s s = .eq := lccmp_self s.data

theorem scmp_eq_iff {a b : String} : scmp a b = .eq ↔ a = b := by
  unfold scmp
  rw [lccmp_eq_iff]
  exact ⟨fun h => by cases a; cases b; exact congrArg String.mk h, fun h => by rw [h]⟩

theorem scmp_swap (a b : String) : (scmp a b).swap = scmp b a :=
  lccmp_swap a.data b.data

theorem scmp_lt_trans {a b c : String} (h₁ : scmp a b = .lt) (h₂ : scmp b c = .lt) :
    scmp a c = .lt :=
  lccmp_lt_trans h₁ h₂

mutual

theorem vcmpSame_self : ∀ a : Value, vcmpSame a a = .eq
  | .bool a => by simp [vcmpSame, cmpo_self]
  | .int a => by simp [vcmpSame, cmpo_self]
  | .str s => by simp [vcmpSame, scmp_self]
  | .list xs => by
    rw [show vcmpSame (Value.list xs) (Value.list xs) = vcmpList xs xs from by
      simp [vcmpSame]]
    exact vcmpList_self xs
  | .dict es => by
    rw [show vcmpSame (Value.dict es) (Value.dict es) = vcmpEntries es es from by
      simp [vcmpSame]]
    exact vcmpEntries_self es

theorem vcmpList_self : ∀ xs : List Value, vcmpList xs xs = .eq
  | [] => by simp [vcmpList]
  | x :: xs => by
    rw [vcmpList, cmpo_self, vcmpSame_self x, vcmpList_self xs]
    rfl

theorem vcmpEntries_self : ∀ es : List (String × Value), vcmpEntries es es = .eq
  | [] => by simp [vcmpEntries]
  | (k, v) :: es => by
    rw [vcmpEntries, scmp_self, cmpo_self, vcmpSame_self v, vcmpEntries_self es]
    rfl

end

theorem vcmp_self (a : Value) : vcmp a a = .eq := by
  rw [vcmp, cmpo_self, vcmpSame_self]
  rfl

mutual

theorem vcmpPack_eq_iff :
    ∀ a b : Value, (vtag a = vtag b ∧ vcmpSame a b = .eq) ↔ a = b
  | .bool _, .bool _ => by simp [vtag, vcmpSame, cmpo_eq_iff]
  | .int _, .int _ => by simp [vtag, vcmpSame, cmpo_eq_iff]
  | .str _, .str _ => by simp [vtag, vcmpSame, scmp_eq_iff]
  | .list xs, .list ys => by
    simp only [vtag, vcmpSame, Value.list.injEq, true_and]
    exact vcmpList_eq_iff xs ys
  | .dict es, .dict fs => by
    simp only [vtag, vcmpSame, Value.dict.injEq, true_and]
    exact vcmpEntries_eq_iff es fs
  | .bool _, .int _ | .bool _, .str _ | .bool _, .list _ | .bool _, .dict _
  | .int _, .bool _ | .int _, .str _ | .int _, .list _ | .int _, .dict _
  | .str _, .bool _ | .str _, .int _ | .str _, .list _ | .str _, .dict _
  | .list _, .bool _ | .list _, .int _ | .list _, .str _ | .list _, .dict _
  | .dict _, .bool _ | .dict _, .int _ | .dict _, .str _ | .dict _, .list _ => by
    simp [vtag, vcmpSame]

theorem vcmpList_eq_iff : ∀ xs ys : List Value, vcmpList xs ys = .eq ↔ xs = ys
  | [], [] => by simp [vcmpList]
  | [], _ :: _ => by simp [vcmpList]
  | _ :: _, [] => by simp [vcmpList]
  | x :: xs, y :: ys => by
    rw [vcmpList, then_eq_eq, then_eq_eq, cmpo_eq_iff]
    simp only [List.cons.injEq]
    exact and_congr (vcmpPack_eq_iff x y) (vcmpList_eq_iff xs ys)

theorem vcmpEntries_eq_iff :
    ∀ es fs : List (String × Value), vcmpEntries es fs = .eq ↔ es = fs
  | [], [] => by simp [vcmpEntries]
  | [], _ :: _ => by simp [vcmpEntries]
  | _ :: _, [] => by simp [vcmpEntries]
  | (k, v) :: es, (l, w) :: fs => by
    rw [vcmpEntries, then_eq_eq, then_eq_eq, then_eq_eq, cmpo_eq_iff, scmp_eq_iff,
      vcmpPack_eq_iff v w, vcmpEntries_eq_iff es fs]
    simp only [List.cons.injEq, Prod.mk.injEq]
    tauto

end

theorem vcmp_eq_iff {a b : Value} : vcmp a b = .eq ↔ a = b := by
  rw [vcmp, then_eq_eq, cmpo_eq_iff]
  exact vcmpPack_eq_iff a b

mutual

theorem vcmpSame_swap : ∀ a b : Value, (vcmpSame a b).swap = vcmpSame b a
  | .bool _, .bool _ => by simp [vcmpSame, cmpo_swap]
  | .int _, .int _ => by simp [vcmpSame, cmpo_swap]
  | .str _, .str _ => by simp [vcmpSame, scmp_swap]
  | .list xs, .list ys => by
    rw [show vcmpSame (Value.list xs) (Value.list ys) = vcmpList xs ys from by
      simp [vcmpSame]]
    rw [show vcmpSame (Value.list ys) (Value.list xs) = vcmpList ys xs from by
      simp [vcmpSame]]
    exact vcmpList_swap xs ys
  | .dict es, .dict fs => by
    rw [show vcmpSame (Value.dict es) (Value.dict fs) = vcmpEntries es fs from by
      simp [vcmpSame]]
    rw [show vcmpSame (Value.dict fs) (Value.dict es) = vcmpEntries fs es from by
      simp [vcmpSame]]
    exact vcmpEntries_swap es fs
  | .bool _, .int _ | .bool _, .str _ | .bool _, .list _ | .bool _, .dict _
  | .int _, .bool _ | .int _, .str _ | .int _, .list _ | .int _, .dict _
  | .str _, .bool _ | .str _, .int _ | .str _, .list _ | .str _, .dict _
  | .list _, .bool _ | .list _, .int _ | .list _, .str _ | .list _, .dict _
  | .dict _, .bool _ | .dict _, .int _ | .dict _, .str _ | .dict _, .list _ => by
    simp [vcmpSame, Ordering.swap]

theorem vcmpList_swap : ∀ xs ys : List Value, (vcmpList xs ys).swap = vcmpList ys xs
  | [], [] => rfl
  | [], _ :: _ => rfl
  | _ :: _, [] => rfl
  | x :: xs, y :: ys => by
    rw [vcmpList, vcmpList, swap_then, swap_then, cmpo_swap, vcmpSame_swap x y,
      vcmpList_swap xs ys]

theorem vcmpEntries_swap :
    ∀ es fs : List (String × Value), (vcmpEntries es fs).swap = vcmpEntries fs es
  | [], [] => rfl
  | [], _ :: _ => rfl
  | _ :: _, [] => rfl
  | (k, v) :: es, (l, w) :: fs => by
    rw [vcmpEntries, vcmpEntries, swap_then, swap_then, swap_then, cmpo_swap,
      scmp_swap, vcmpSame_swap v w, vcmpEntries_swap es fs]

end

theorem vcmp_swap (a b : Value) : (vcmp a b).swap = vcmp b a := by
  rw [vcmp, vcmp, swap_then, cmpo_swap, vcmpSame_swap]

mutual

theorem vcmp_lt_trans :
    ∀ a b c : Value, vcmp a b = .lt → vcmp b c = .lt → vcmp a c = .lt
  | a, b, c, h₁, h₂ => by
    rw [vcmp, then_eq_lt] at h₁ h₂
    rw [vcmp, then_eq_lt]
    rcases h₁ with h₁ | ⟨h₁e, h₁s⟩
    · rcases h₂ with h₂ | ⟨h₂e, h₂s⟩
      · exact Or.inl (cmpo_lt_trans h₁ h₂)
      · rw [cmpo_eq_iff] at h₂e
        rw [cmpo_lt_iff] at h₁ ⊢
        exact Or.inl (h₂e ▸ h₁)
    · rw [cmpo_eq_iff] at h₁e
      rcases h₂ with h₂ | ⟨h₂e, h₂s⟩
      · rw [cmpo_lt_iff] at h₂ ⊢
        exact Or.inl (h₁e ▸ h₂)
      · rw [cmpo_eq_iff] at h₂e
        refine Or.inr ⟨by rw [cmpo_eq_iff, h₁e, h₂e], ?_⟩
        exact vcmpSame_lt_trans a b c h₁e h₂e h₁s h₂s

theorem vcmpSame_lt_trans :
    ∀ a b c : Value, vtag a = vtag b → vtag b = vtag c →
      vcmpSame a b = .lt → vcmpSame b c = .lt → vcmpSame a c = .lt
  | a, b, c, ht₁, ht₂, hs₁, hs₂ => by
    cases a <;> cases b <;> cases c <;> simp [vtag] at ht₁ ht₂ <;>
      simp only [vcmpSame] at hs₁ hs₂ ⊢
    · exact cmpo_lt_trans hs₁ hs₂
    · exact cmpo_lt_trans hs₁ hs₂
    · exact scmp_lt_trans hs₁ hs₂
    · exact vcmpList_lt_trans _ _ _ hs₁ hs₂
    · exact vcmpEntries_lt_trans _ _ _ hs₁ hs₂

theorem vcmpList_lt_trans :
    ∀ xs ys zs : List Value,
      vcmpList xs ys = .lt → vcmpList ys zs = .lt → vcmpList xs zs = .lt
  | [], _ :: _, _ :: _, _, _ => by simp [vcmpList]
  | x :: xs, y :: ys, z :: zs, h₁, h₂ => by
    rw [vcmpList,
      show ((cmpo (vtag x) (vtag y)).then (vcmpSame x y)) = vcmp x y from rfl,
      then_eq_lt] at h₁
    rw [vcmpList,
      show ((cmpo (vtag y) (vtag z)).then (vcmpSame y z)) = vcmp y z from rfl,
      then_eq_lt] at h₂
    rw [vcmpList,
      show ((cmpo (vtag x) (vtag z)).then (vcmpSame x z)) = vcmp x z from rfl,
      then_eq_lt]
    rcases h₁ with h₁ | ⟨h₁e, h₁t⟩
    · rcases h₂ with h₂ | ⟨h₂e, h₂t⟩
      · exact Or.inl (vcmp_lt_trans x y z h₁ h₂)
      · rw [vcmp_eq_iff] at h₂e
        exact Or.inl (h₂e ▸ h₁)
    · rw [vcmp_eq_iff] at h₁e
      subst h₁e
      rcases h₂ with h₂ | ⟨h₂e, h₂t⟩
      · exact Or.inl h₂
      · rw [vcmp_eq_iff] at h₂e
        subst h₂e
        exact Or.inr ⟨vcmp_self x, vcmpList_lt_trans xs ys zs h₁t h₂t⟩
  | [], [], _, h₁, _ => by simp [vcmpList] at h₁
  | _ :: _, [], _, h₁, _ => by simp [vcmpList] at h₁
  | _, _ :: _, [], _, h₂ => by simp [vcmpList] at h₂

theorem vcmpEntries_lt_trans :
    ∀ es fs gs : List (String × Value),
      vcmpEntries es fs = .lt → vcmpEntries fs gs = .lt → vcmpEntries es gs = .lt
  | [], _ :: _, _ :: _, _, _ => by simp [vcmpEntries]
  | (k, v) :: es, (l, w) :: fs, (m, u) :: gs, h₁, h₂ => by
    rw [vcmpEntries,
      show ((cmpo (vtag v) (vtag w)).then (vcmpSame v w)) = vcmp v w from rfl,
      then_eq_lt, then_eq_lt] at h₁
    rw [vcmpEntries,
      show ((cmpo (vtag w) (vtag u)).then (vcmpSame w u)) = vcmp w u from rfl,
      then_eq_lt, then_eq_lt] at h₂
    rw [vcmpEntries,
      show ((cmpo (vtag v) (vtag u)).then (vcmpSame v u)) = vcmp v u from rfl,
      then_eq_lt, then_eq_lt]
    rcases h₁ with h₁ | ⟨h₁e, h₁r⟩
    · rcases h₂ with h₂ | ⟨h₂e, h₂r⟩
      · exact Or.inl (scmp_lt_trans h₁ h₂)
      · rw [scmp_eq_iff] at h₂e
        exact Or.inl (h₂e ▸ h₁)
    · rw [scmp_eq_iff] at h₁e
      subst h₁e
      rcases h₂ with h₂ | ⟨h₂e, h₂r⟩
      · exact Or.inl h₂
      · rw [scmp_eq_iff] at h₂e
        subst h₂e
        refine Or.inr ⟨scmp_self k, ?_⟩
        rcases h₁r with h₁r | ⟨h₁re, h₁rt⟩
        · rcases h₂r with h₂r | ⟨h₂re, h₂rt⟩
          · exact Or.inl (vcmp_lt_trans v w u h₁r h₂r)
          · rw [vcmp_eq_iff] at h₂re
            exact Or.inl (h₂re ▸ h₁r)
        · rw [vcmp_eq_iff] at h₁re
          subst h₁re
          rcases h₂r with h₂r | ⟨h₂re, h₂rt⟩
          · exact Or.inl h₂r
          · rw [vcmp_eq_iff] at h₂re
            subst h₂re
            exact Or.inr ⟨vcmp_self v, vcmpEntries_lt_trans es fs gs h₁rt h₂rt⟩
  | [], [], _, h₁, _ => by simp [vcmpEntries] at h₁
  | _ :: _, [], _, h₁, _ => by simp [vcmpEntries] at h₁
  | _, _ :: _, [], _, h₂ => by simp [vcmpEntries] at h₂

end

/-- The non-strict order on `Value` induced by `vcmp`, used for sorting
sequence items into canonical order. -/
def vle (a b : Value) : Prop := vcmp a b ≠ Ordering.gt

instance : DecidableRel vle := fun a b =>
  inferInstanceAs (Decidable (vcmp a b ≠ Ordering.gt))

theorem vle_total (a b : Value) : vle a b ∨ vle b a := by
  unfold vle
  cases h : vcmp a b with
  | lt => exact Or.inl (by simp)
  | eq => exact Or.inl (by simp)
  | gt =>
    have hba : vcmp b a = .lt := by rw [← vcmp_swap a b, h]; rfl
    exact Or.inr (by simp [hba])

theorem vle_trans {a b c : Value} (h₁ : vle a b) (h₂ : vle b c) : vle a c := by
  unfold vle at h₁ h₂ ⊢
  cases hab : vcmp a b with
  | gt => exact absurd hab h₁
  | eq =>
    rw [vcmp_eq_iff] at hab
    subst hab
    exact h₂
  | lt =>
    cases hbc : vcmp b c with
    | gt => exact absurd hbc h₂
    | eq =>
      rw [vcmp_eq_iff] at hbc
      subst hbc
      simp [hab]
    | lt => simp [vcmp_lt_trans a b c hab hbc]

theorem vle_antisymm {a b : Value} (h₁ : vle a b) (h₂ : vle b a) : a = b := by
  unfold vle at h₁ h₂
  cases hab : vcmp a b with
  | eq => exact vcmp_eq_iff.mp hab
  | gt => exact absurd hab h₁
  | lt =>
    have hba : vcmp b a = .gt := by rw [← vcmp_swap a b, hab]; rfl
    exact absurd hba h₂

instance : IsTotal Value vle := ⟨vle_total⟩

instance : IsTrans Value vle := ⟨fun _ _ _ => vle_trans⟩

instance : IsAntisymm Value vle := ⟨fun _ _ => vle_antisymm⟩

/-- Comparison of mapping entries: key first, then value. -/
def ecmp (e f : String × Value) : Ordering := (scmp e.1 f.1).then (vcmp e.2 f.2)

/-- The non-strict order on mapping entries induced by `ecmp`, used for
sorting mapping entries into canonical order. -/
def ele (e f : String × Value) : Prop := ecmp e f ≠ Ordering.gt

instance : DecidableRel ele := fun e f =>
  inferInstanceAs (Decidable (ecmp e f ≠ Ordering.gt))

theorem ecmp_eq_iff {e f : String × Value} : ecmp e f = .eq ↔ e = f := by
  rw [ecmp, then_eq_eq, scmp_eq_iff, vcmp_eq_iff, Prod.ext_iff]

theorem ecmp_swap (e f : String × Value) : (ecmp e f).swap = ecmp f e := by
  rw [ecmp, ecmp, swap_then, scmp_swap, vcmp_swap]

theorem ecmp_lt_trans {e f g : String × Value}
    (h₁ : ecmp e f = .lt) (h₂ : ecmp f g = .lt) : ecmp e g = .lt := by
  rw [ecmp, then_eq_lt] at h₁ h₂ ⊢
  rcases h₁ with h₁ | ⟨h₁e, h₁v⟩
  · rcases h₂ with h₂ | ⟨h₂e, h₂v⟩
    · exact Or.inl (scmp_lt_trans h₁ h₂)
    · rw [scmp_eq_iff] at h₂e
      exact Or.inl (h₂e ▸ h₁)
  · rw [scmp_eq_iff] at h₁e
    rcases h₂ with h₂ | ⟨h₂e, h₂v⟩
    · exact Or.inl (h₁e ▸ h₂)
    · rw [scmp_eq_iff] at h₂e
      refine Or.inr ⟨by rw [scmp_eq_iff, h₁e, h₂e], ?_⟩
      exact vcmp_lt_trans _ _ _ h₁v h₂v

theorem ele_total (e f : String × Value) : ele e f ∨ ele f e := by
  unfold ele
  cases h : ecmp e f with
  | lt => exact Or.inl (by simp)
  | eq => exact Or.inl (by simp)
  | gt =>
    have hfe : ecmp f e = .lt := by rw [← ecmp_swap e f, h]; rfl
    exact Or.inr (by simp [hfe])

theorem ele_trans {e f g : String × Value} (h₁ : ele e f) (h₂ : ele f g) : ele e g := by
  unfold ele at h₁ h₂ ⊢
  cases hef : ecmp e f with
  | gt => exact absurd hef h₁
  | eq =>
    rw [ecmp_eq_iff] at hef
    subst hef
    exact h₂
  | lt =>
    cases hfg : ecmp f g with
    | gt => exact absurd hfg h₂
    | eq =>
      rw [ecmp_eq_iff] at hfg
      subst hfg
      simp [hef]
    | lt => simp [ecmp_lt_trans hef hfg]

theorem ele_antisymm {e f : String × Value} (h₁ : ele e f) (h₂ : ele f e) : e = f := by
  unfold ele at h₁ h₂
  cases hef : ecmp e f with
  | eq => exact ecmp_eq_iff.mp hef
  | gt => exact absurd hef h₁
  | lt =>
    have hfe : ecmp f e = .gt := by rw [← ecmp_swap e f, hef]; rfl
    exact absurd hfe h₂

instance : IsTotal (String × Value) ele := ⟨ele_total⟩

instance : IsTrans (String × Value) ele := ⟨fun _ _ _ => ele_trans⟩

instance : IsAntisymm (String × Value) ele := ⟨fun _ _ => ele_antisymm⟩

/-! ### Canonical forms and the DiffEngine model

Modelled from the spec: the `deepdiff.DeepDiff(baseline, current,
ignore_order=True)` call in `compare_configurations` is not repository code.
Spec section 4.2 specifies the comparison: scalars by value, mappings by key
(order-irrelevant, union of keys), sequences as multisets of canonical
sub-trees whose unmatched members become item additions/removals, and a
single type-change entry for differing node kinds. `canon` computes the
canonical form used for sequence-item matching: it recursively sorts
sequence items and mapping entries, so two trees have the same canonical
form exactly when they are equal up to reordering of sequences and of
mapping entries. -/

/-- Canonical form of a tree: children canonicalised, then sequences and
mapping entry lists sorted. -/
def canon : Value → Value
  | .bool b => .bool b
  | .int n => .int n
  | .str s => .str s
  | .list xs => .list (List.insertionSort vle (xs.attach.map fun e => canon e.1))
  | .dict es =>
    .dict (List.insertionSort ele (es.attach.map fun e => (e.1.1, canon e.1.2)))
termination_by v => sizeOf v
decreasing_by
  · have h := List.sizeOf_lt_of_mem e.2
    simp only [Value.list.sizeOf_spec]
    try simp
    try omega
  · have h := List.sizeOf_lt_of_mem e.2
    have h2 : sizeOf e.1.2 < sizeOf e.1 := by
      obtain ⟨k, v⟩ := e.1
      simp
      try omega
    simp only [Value.dict.sizeOf_spec]
    try simp
    try omega

/-- Canonicalise a mapping entry. -/
def canonEntry (e : String × Value) : String × Value := (e.1, canon e.2)

theorem canon_list (xs : List Value) :
    canon (.list xs) = .list (List.insertionSort vle (xs.map canon)) := by
  rw [canon, List.attach_map_val]

theorem canon_dict (es : List (String × Value)) :
    canon (.dict es) = .dict (List.insertionSort ele (es.map canonEntry)) := by
  rw [canon]
  congr 1
  have : (es.attach.map fun e => (e.1.1, canon e.1.2)) =
      es.attach.map fun e => canonEntry e.1 := by
    apply List.map_congr_left
    intro e _
    rfl
  rw [this, List.attach_map_val]

/-- Remove the first item of `xs` whose canonical form is `c` (the canonical
matching step of the order-insensitive sequence comparison). -/
def eraseFirstCanon (xs : List Value) (c : Value) : List Value :=
  match xs with
  | [] => []
  | x :: rest => if canon x = c then rest else x :: eraseFirstCanon rest c

/-- The items of `xs` left unmatched after removing, for each item of `ys`,
one item of `xs` with the same canonical form: the multiset difference of
spec section 4.2 step 3. -/
def canonDiff (xs ys : List Value) : List Value :=
  ys.foldl (fun acc y => eraseFirstCanon acc (canon y)) xs

/-- The kinds of detected changes (spec section 3, DiffEntry). -/
inductive DiffKind where
  | valueChanged
  | typeChanged
  | keyAdded
  | keyRemoved
  | itemAdded
  | itemRemoved
deriving DecidableEq

/-- One detected change: its path (mapping keys from the root), kind, and
the removed/added or old/new values as present for the kind. -/
structure DiffEntry where
  path : List String
  kind : DiffKind
  oldValue : Option Value
  newValue : Option Value
deriving DecidableEq

/-- Recursive structural comparison of two trees (spec section 4.2),
accumulating the path of mapping keys. Scalar nodes compare by value and
logical type; mappings compare by key with baseline keys first; sequences
compare as multisets of canonical sub-trees with no recursion into matched
items; any other kind combination is a single type change. -/
def compareNodes (path : List String) (a b : Value) : List DiffEntry :=
  match a, b with
  | .bool x, .bool y =>
    if x = y then [] else [⟨path, .valueChanged, some (.bool x), some (.bool y)⟩]
  | .int x, .int y =>
    if x = y then [] else [⟨path, .valueChanged, some (.int x), some (.int y)⟩]
  | .str x, .str y =>
    if x = y then [] else [⟨path, .valueChanged, some (.str x), some (.str y)⟩]
  | .list xs, .list ys =>
    ((canonDiff xs ys).map fun x => ⟨path, .itemRemoved, some x, none⟩) ++
      ((canonDiff ys xs).map fun y => ⟨path, .itemAdded, none, some y⟩)
  | .dict es, .dict fs =>
    (es.attach.map fun e =>
      match fs.lookup e.1.1 with
      | some w => compareNodes (path ++ [e.1.1]) e.1.2 w
      | none => [⟨path ++ [e.1.1], .keyRemoved, some e.1.2, none⟩]).flatten ++
      ((fs.filter fun f => (es.lookup f.1).isNone).map fun f =>
        ⟨path ++ [f.1], .keyAdded, none, some f.2⟩)
  | a, b => [⟨path, .typeChanged, some a, some b⟩]
termination_by sizeOf a
decreasing_by
  have h := List.sizeOf_lt_of_mem e.2
  have h2 : sizeOf e.1.2 < sizeOf e.1 := by
    obtain ⟨k, v⟩ := e.1
    simp
    try omega
  simp only [Value.dict.sizeOf_spec]
  try simp
  try omega

/-- The `DeepDiff(baseline, current_config, ignore_order=True)` call of
`compare_configurations` (line 136), as the recursive comparison above. -/
def deepDiff (baseline current : Value) : List DiffEntry :=
  compareNodes [] baseline current

/-- `compare_configurations` from `src/main.py` (lines 121-140): `None` when
either input is `None`, otherwise the deep difference of the two trees. -/
def compare_configurations (baseline current : Option Value) :
    Option (List DiffEntry) :=
  match baseline, current with
  | some b, some c => some (deepDiff b c)
  | _, _ => none

/-! ### One check cycle: `check_configuration` from `src/main.py` -/

/-- Which stages of a check cycle were actually invoked: whether the parser
ran on the command output, whether the baseline load ran, whether the diff
was computed, and whether `save_differences` wrote the output file. -/
structure CycleTrace where
  parsedCurrent : Bool
  loadedBaseline : Bool
  computedDiff : Bool
  savedOutput : Bool
deriving DecidableEq

/-- The observable outcome of one check cycle, following the `return`
points of `check_configuration` (lines 196-242). -/
inductive CycleResult where
  | commandFailed
  | currentParseFailed
  | baselineLoadFailed
  | completed : List DiffEntry → CycleResult
deriving DecidableEq

/-- `check_configuration` from `src/main.py` (lines 196-242): run the
command, parse its output, load the baseline, compare, and save nonempty
differences when an output path is configured. The two external effects
enter as data: `commandOutput` is `run_command`'s return value and
`baselineContent` is the text obtained by `load_baseline`'s file read or
HTTP GET (`none` for a missing/unreachable source). Returns the cycle
outcome together with the trace of invoked stages. -/
def check_configuration (commandOutput : Option String) (baseline_path : String)
    (output_path : Option String) (format : Option Fmt)
    (baselineContent : Option String) : CycleResult × CycleTrace :=
  match commandOutput with
  | none => (.commandFailed, ⟨false, false, false, false⟩)
  | some current_config_string =>
    match format_output current_config_string format with
    | none => (.currentParseFailed, ⟨true, false, false, false⟩)
    | some current_config =>
      match load_baseline baseline_path format baselineContent with
      | none => (.baselineLoadFailed, ⟨true, true, false, false⟩)
      | some baseline =>
        match compare_configurations (some baseline) (some current_config) with
        | some differences =>
          if differences.isEmpty then
            (.completed differences, ⟨true, true, true, false⟩)
          else
            (.completed differences, ⟨true, true, true, output_path.isSome⟩)
        | none => (.completed [], ⟨true, true, true, false⟩)

/-- Whether a difference sequence counts as drift: the truthiness test
`if differences:` on line 235. -/
def hasDrift (differences : List DiffEntry) : Bool := !differences.isEmpty

/-- The log line each cycle outcome produces (lines 212, 222, 229, 236 and
242 of `src/main.py`). -/
def cycleMessage : CycleResult → String
  | .commandFailed => "Failed to retrieve current configuration. Aborting."
  | .currentParseFailed => "Failed to parse current configuration. Aborting"
  | .baselineLoadFailed => "Failed to load baseline configuration. Aborting."
  | .completed differences =>
    if differences.isEmpty then "No configuration drift detected."
    else "Configuration drift detected!"

/-! ### Well-formed trees and reordering equivalence -/

/-- Pairwise distinctness of mapping keys. -/
def keysNodup : List String → Bool
  | [] => true
  | k :: ks => !ks.contains k && keysNodup ks

/-- Well-formed tree: every mapping has pairwise distinct keys (the
CanonicalNode invariant of spec section 3). -/
def wfB : Value → Bool
  | .bool _ => true
  | .int _ => true
  | .str _ => true
  | .list xs => xs.attach.all fun e => wfB e.1
  | .dict es => keysNodup (es.map Prod.fst) && es.attach.all fun e => wfB e.1.2
termination_by v => sizeOf v
decreasing_by
  · have h := List.sizeOf_lt_of_mem e.2
    simp only [Value.list.sizeOf_spec]
    try simp
    try omega
  · have h := List.sizeOf_lt_of_mem e.2
    have h2 : sizeOf e.1.2 < sizeOf e.1 := by
      obtain ⟨k, v⟩ := e.1
      simp
      try omega
    simp only [Value.dict.sizeOf_spec]
    try simp
    try omega

theorem all_attach_eq_all {α : Type} (xs : List α) (g : α → Bool) :
    (xs.attach.all fun e => g e.1) = xs.all g := by
  cases ha : xs.attach.all fun e => g e.1 with
  | true =>
    rw [List.all_eq_true] at ha
    exact (List.all_eq_true.mpr fun x hx => ha ⟨x, hx⟩ (List.mem_attach xs ⟨x, hx⟩)).symm
  | false =>
    cases hb : xs.all g with
    | false => rfl
    | true =>
      rw [List.all_eq_true] at hb
      have : xs.attach.all (fun e => g e.1) = true :=
        List.all_eq_true.mpr fun e _ => hb e.1 e.2
      rw [this] at ha
      cases ha

theorem wfB_scalar_eq :
    (∀ b, wfB (.bool b) = true) ∧ (∀ n, wfB (.int n) = true) ∧
      ∀ s, wfB (.str s) = true := by
  refine ⟨fun b => by rw [wfB], fun n => by rw [wfB], fun s => by rw [wfB]⟩

theorem wfB_list_eq (xs : List Value) : wfB (.list xs) = xs.all wfB := by
  rw [wfB, all_attach_eq_all]

theorem wfB_dict_eq (es : List (String × Value)) :
    wfB (.dict es) = (keysNodup (es.map Prod.fst) && es.all fun e => wfB e.2) := by
  rw [wfB]
  congr 1
  exact all_attach_eq_all es fun e => wfB e.2

mutual

/-- Two trees are structurally identical except for the order of items
inside sequences: scalars must agree, mapping entries correspond in order
with equal keys, and sequences correspond up to permutation. -/
inductive PermEq : Value → Value → Prop where
  | bool (b : Bool) : PermEq (.bool b) (.bool b)
  | int (n : Int) : PermEq (.int n) (.int n)
  | str (s : String) : PermEq (.str s) (.str s)
  | list {xs ys : List Value} : PermEqList xs ys → PermEq (.list xs) (.list ys)
  | dict {es fs : List (String × Value)} :
      PermEqEntries es fs → PermEq (.dict es) (.dict fs)

/-- Permutation of sequence items, with `PermEq` allowed item-wise. -/
inductive PermEqList : List Value → List Value → Prop where
  | nil : PermEqList [] []
  | cons {x y : Value} {xs ys : List Value} :
      PermEq x y → PermEqList xs ys → PermEqList (x :: xs) (y :: ys)
  | swap {x y x2 y2 : Value} {xs ys : List Value} :
      PermEq x x2 → PermEq y y2 → PermEqList xs ys →
      PermEqList (x :: y :: xs) (y2 :: x2 :: ys)
  | trans {xs ys zs : List Value} :
      PermEqList xs ys → PermEqList ys zs → PermEqList xs zs

/-- Entry-wise correspondence of mapping entry lists: equal keys in the
same order, `PermEq` values. -/
inductive PermEqEntries : List (String × Value) → List (String × Value) → Prop where
  | nil : PermEqEntries [] []
  | cons {k : String} {v w : Value} {es fs : List (String × Value)} :
      PermEq v w → PermEqEntries es fs →
      PermEqEntries ((k, v) :: es) ((k, w) :: fs)

end

mutual

theorem permEq_refl : ∀ a : Value, PermEq a a
  | .bool b => .bool b
  | .int n => .int n
  | .str s => .str s
  | .list xs => .list (permEqList_refl xs)
  | .dict es => .dict (permEqEntries_refl es)

theorem permEqList_refl : ∀ xs : List Value, PermEqList xs xs
  | [] => .nil
  | x :: xs => .cons (permEq_refl x) (permEqList_refl xs)

theorem permEqEntries_refl : ∀ es : List (String × Value), PermEqEntries es es
  | [] => .nil
  | (_, v) :: es => .cons (permEq_refl v) (permEqEntries_refl es)

end

/-- A plain permutation of sequence items is a `PermEqList`. -/
theorem permEqList_of_perm {xs ys : List Value} (h : xs.Perm ys) :
    PermEqList xs ys := by
  induction h with
  | nil => exact .nil
  | cons x _ ih => exact .cons (permEq_refl x) ih
  | swap x y l => exact .swap (permEq_refl y) (permEq_refl x) (permEqList_refl l)
  | trans _ _ ih₁ ih₂ => exact .trans ih₁ ih₂

/-! ### Canonical forms are invariant under reordering -/

theorem insertionSort_congr_vle {l₁ l₂ : List Value} (h : l₁.Perm l₂) :
    List.insertionSort vle l₁ = List.insertionSort vle l₂ :=
  List.eq_of_perm_of_sorted
    ((List.perm_insertionSort vle l₁).trans
      (h.trans (List.perm_insertionSort vle l₂).symm))
    (List.sorted_insertionSort vle l₁) (List.sorted_insertionSort vle l₂)

theorem insertionSort_congr_ele {l₁ l₂ : List (String × Value)} (h : l₁.Perm l₂) :
    List.insertionSort ele l₁ = List.insertionSort ele l₂ :=
  List.eq_of_perm_of_sorted
    ((List.perm_insertionSort ele l₁).trans
      (h.trans (List.perm_insertionSort ele l₂).symm))
    (List.sorted_insertionSort ele l₁) (List.sorted_insertionSort ele l₂)

/-- Trees related by `PermEq` have the same canonical form. -/
theorem permEq_canon {a b : Value} (h : PermEq a b) : canon a = canon b := by
  refine @PermEq.rec
    (fun a b _ => canon a = canon b)
    (fun xs ys _ => (xs.map canon).Perm (ys.map canon))
    (fun es fs _ => es.map canonEntry = fs.map canonEntry)
    (fun _ => rfl) (fun _ => rfl) (fun _ => rfl)
    ?_ ?_ ?_ ?_ ?_ ?_ ?_ ?_ a b h
  · intro xs ys _ ih
    rw [canon_list, canon_list]
    exact congrArg Value.list (insertionSort_congr_vle ih)
  · intro es fs _ ih
    rw [canon_dict, canon_dict, ih]
  · exact List.Perm.refl _
  · intro x y xs ys _ _ ihh iht
    rw [List.map_cons, List.map_cons, ihh]
    exact iht.cons _
  · intro x y x2 y2 xs ys _ _ _ ihx ihy iht
    simp only [List.map_cons]
    rw [ihx, ihy]
    exact List.Perm.swap' _ _ iht
  · intro xs ys zs _ _ ih₁ ih₂
    exact ih₁.trans ih₂
  · rfl
  · intro k v w es fs _ _ ihv iht
    simp only [List.map_cons, canonEntry]
    rw [ihv, iht]

/-! ### Canon-equal trees compare empty -/

theorem map_canon_eraseFirstCanon (xs : List Value) (c : Value) :
    (eraseFirstCanon xs c).map canon = (xs.map canon).erase c := by
  induction xs with
  | nil => rfl
  | cons x rest ih =>
    by_cases h : canon x = c
    · simp [eraseFirstCanon, h, List.erase_cons]
    · simp [eraseFirstCanon, h, List.erase_cons, ih]

theorem map_canon_canonDiff (xs ys : List Value) :
    (canonDiff xs ys).map canon = (xs.map canon).diff (ys.map canon) := by
  induction ys generalizing xs with
  | nil => rfl
  | cons y ys ih =>
    show (canonDiff (eraseFirstCanon xs (canon y)) ys).map canon = _
    rw [ih, map_canon_eraseFirstCanon, List.map_cons, List.diff_cons]

theorem diff_eq_nil_of_perm {α : Type} [DecidableEq α] {l₁ l₂ : List α}
    (h : l₁.Perm l₂) : l₁.diff l₂ = [] := by
  have hc : (l₁ : Multiset α) = (l₂ : Multiset α) := Multiset.coe_eq_coe.mpr h
  have hz : ((l₁.diff l₂ : List α) : Multiset α) = 0 := by
    rw [← Multiset.coe_sub, hc, tsub_self]
  exact (Multiset.coe_eq_zero _).mp hz

theorem canonDiff_nil_of_perm {xs ys : List Value}
    (h : (xs.map canon).Perm (ys.map canon)) : canonDiff xs ys = [] := by
  have hm := map_canon_canonDiff xs ys
  rw [diff_eq_nil_of_perm h] at hm
  exact List.map_eq_nil_iff.mp hm

theorem lookup_of_mem_nodup :
    ∀ {es : List (String × Value)}, keysNodup (es.map Prod.fst) = true →
      ∀ {k : String} {v : Value}, (k, v) ∈ es → es.lookup k = some v := by
  intro es
  induction es with
  | nil => intro _ k v hm; cases hm
  | cons e es ih =>
    intro hnd k v hm
    obtain ⟨k₁, v₁⟩ := e
    simp only [List.map_cons, keysNodup, Bool.and_eq_true, Bool.not_eq_true'] at hnd
    rcases List.mem_cons.mp hm with he | ht
    · rw [Prod.mk.injEq] at he
      rw [List.lookup, he.1, he.2]
      simp
    · have hk : k ≠ k₁ := by
        intro hkk
        subst hkk
        have : k ∈ es.map Prod.fst := List.mem_map_of_mem Prod.fst ht
        rw [← List.elem_iff] at this
        rw [List.contains, this] at hnd
        exact absurd hnd.1 (by simp)
      rw [List.lookup]
      have hb2 : (k == k₁) = false := by simp [hk]
      rw [hb2]
      exact ih hnd.2 ht

theorem lookup_isSome_of_mem_keys :
    ∀ {es : List (String × Value)} {k : String}, k ∈ es.map Prod.fst →
      es.lookup k ≠ none := by
  intro es
  induction es with
  | nil => intro k hm; cases hm
  | cons e es ih =>
    intro k hm
    obtain ⟨k₁, v₁⟩ := e
    rw [List.lookup]
    by_cases hk : k = k₁
    · simp [hk]
    · have hb2 : (k == k₁) = false := by simp [hk]
      rw [hb2]
      rcases List.mem_cons.mp hm with he | ht
      · exact absurd he hk
      · exact ih ht

theorem wfB_list_mem {xs : List Value} (h : wfB (.list xs) = true) {x : Value}
    (hx : x ∈ xs) : wfB x = true := by
  rw [wfB, List.all_eq_true] at h
  exact h ⟨x, hx⟩ (List.mem_attach xs ⟨x, hx⟩)

theorem wfB_dict_nodup {es : List (String × Value)}
    (h : wfB (.dict es) = true) : keysNodup (es.map Prod.fst) = true := by
  rw [wfB, Bool.and_eq_true] at h
  exact h.1

theorem wfB_dict_mem {es : List (String × Value)} (h : wfB (.dict es) = true)
    {k : String} {v : Value} (hm : (k, v) ∈ es) : wfB v = true := by
  rw [wfB, Bool.and_eq_true, List.all_eq_true] at h
  exact h.2 ⟨(k, v), hm⟩ (List.mem_attach es ⟨(k, v), hm⟩)

theorem canon_bool (b : Bool) : canon (.bool b) = .bool b := by simp [canon]

theorem canon_int (n : Int) : canon (.int n) = .int n := by simp [canon]

theorem canon_str (s : String) : canon (.str s) = .str s := by simp [canon]

/-- `vtag` is preserved by canonicalisation. -/
theorem canon_tag : ∀ v : Value, vtag (canon v) = vtag v
  | .bool b => by rw [canon_bool]
  | .int n => by rw [canon_int]
  | .str s => by rw [canon_str]
  | .list xs => by rw [canon_list]; rfl
  | .dict es => by rw [canon_dict]; rfl

/-- The master lemma of the DiffEngine model: well-formed trees with equal
canonical forms produce no difference entries. -/
theorem compareNodes_nil_of_canon_eq :
    ∀ (p : List String) (a b : Value), wfB a = true → wfB b = true →
      canon a = canon b → compareNodes p a b = []
  | p, a, b, ha, hb, h => by
    have htag : vtag a = vtag b := by rw [← canon_tag a, ← canon_tag b, h]
    cases a <;> cases b <;> simp [vtag] at htag
    case bool.bool x y =>
      have hxy : x = y := by
        rw [canon_bool, canon_bool] at h
        exact Value.bool.inj h
      simp [compareNodes, hxy]
    case int.int x y =>
      have hxy : x = y := by
        rw [canon_int, canon_int] at h
        exact Value.int.inj h
      simp [compareNodes, hxy]
    case str.str x y =>
      have hxy : x = y := by
        rw [canon_str, canon_str] at h
        exact Value.str.inj h
      simp [compareNodes, hxy]
    case list.list xs ys =>
      rw [canon_list, canon_list, Value.list.injEq] at h
      have hperm : (xs.map canon).Perm (ys.map canon) := by
        have h1 := (List.perm_insertionSort vle (xs.map canon)).symm
        rw [h] at h1
        exact h1.trans (List.perm_insertionSort vle (ys.map canon))
      have hd1 : canonDiff xs ys = [] := canonDiff_nil_of_perm hperm
      have hd2 : canonDiff ys xs = [] := canonDiff_nil_of_perm hperm.symm
      simp [compareNodes, hd1, hd2]
    case dict.dict es fs =>
      rw [canon_dict, canon_dict, Value.dict.injEq] at h
      have hperm : (es.map canonEntry).Perm (fs.map canonEntry) := by
        have h1 := (List.perm_insertionSort ele (es.map canonEntry)).symm
        rw [h] at h1
        exact h1.trans (List.perm_insertionSort ele (fs.map canonEntry))
      rw [compareNodes]
      rw [List.append_eq_nil]
      constructor
      · rw [List.flatten_eq_nil_iff]
        intro l hl
        rw [List.mem_map] at hl
        obtain ⟨e, hea, hle⟩ := hl
        obtain ⟨⟨k, v⟩, hmem⟩ := e
        have hce : (k, canon v) ∈ fs.map canonEntry := by
          have h1 : canonEntry (k, v) ∈ es.map canonEntry :=
            List.mem_map_of_mem canonEntry hmem
          exact hperm.mem_iff.mp h1
        rw [List.mem_map] at hce
        obtain ⟨⟨k2, w⟩, hwmem, hweq⟩ := hce
        rw [canonEntry, Prod.mk.injEq] at hweq
        obtain ⟨hk2, hcw⟩ := hweq
        have hk2' : k2 = k := hk2
        have hcw' : canon w = canon v := hcw
        rw [hk2'] at hwmem
        have hlook : fs.lookup k = some w :=
          lookup_of_mem_nodup (wfB_dict_nodup hb) hwmem
        rw [← hle]
        dsimp only
        rw [hlook]
        exact compareNodes_nil_of_canon_eq (p ++ [k]) v w
          (wfB_dict_mem ha hmem) (wfB_dict_mem hb hwmem) hcw'.symm
      · rw [List.map_eq_nil_iff, List.filter_eq_nil_iff]
        intro f hf
        have hce : canonEntry f ∈ es.map canonEntry :=
          hperm.symm.mem_iff.mp (List.mem_map_of_mem canonEntry hf)
        rw [List.mem_map] at hce
        obtain ⟨e, hemem, heeq⟩ := hce
        have hkey : f.1 ∈ es.map Prod.fst := by
          have : e.1 = f.1 := by
            have := congrArg Prod.fst heeq
            simpa [canonEntry] using this
          rw [← this]
          exact List.mem_map_of_mem Prod.fst hemem
        have := lookup_isSome_of_mem_keys hkey
        simp [Option.isNone_iff_eq_none, this]
  termination_by _ a => sizeOf a
  decreasing_by
    have hs := List.sizeOf_lt_of_mem hmem
    simp_all
    omega

/-! ### Bare scalar documents -/

/-- The command output or baseline text is a bare scalar: after stripping,
a nonempty run of plain-word or integer-literal characters that is not one
of YAML's null spellings. -/
def isBareScalar (s : String) : Bool :=
  (intLit (trimChars s.data) || plainWord (trimChars s.data)) &&
    !yamlNullWord (trimChars s.data)

/-- The scalar a bare-scalar document parses to. -/
def bareValue (s : String) : Value :=
  if yamlTrueWord (trimChars s.data) then Value.bool true
  else if yamlFalseWord (trimChars s.data) then Value.bool false
  else if intLit (trimChars s.data) then Value.int (intVal (trimChars s.data))
  else Value.str ⟨trimChars s.data⟩

theorem plainChar_of_digit {c : Char} (h : isDigitChar c = true) :
    plainChar c = true := by
  rw [isDigitChar] at h
  simp [plainChar, Char.isAlphanum, h]

theorem all_plainChar_of_intLit {cs : List Char} (h : intLit cs = true) :
    ∀ c ∈ cs, plainChar c = true := by
  intro c hc
  cases cs with
  | nil => cases hc
  | cons c₁ ds =>
    rw [intLit] at h
    by_cases hm : c₁ = '-'
    · rw [if_pos hm] at h
      simp only [Bool.and_eq_true, List.all_eq_true] at h
      rcases List.mem_cons.mp hc with he | ht
      · rw [he, hm]
        decide
      · exact plainChar_of_digit (h.2 c ht)
    · rw [if_neg hm] at h
      rw [List.all_eq_true] at h
      exact plainChar_of_digit (h c hc)

theorem all_plainChar_of_plainWord {cs : List Char} (h : plainWord cs = true) :
    ∀ c ∈ cs, plainChar c = true := by
  rw [plainWord, Bool.and_eq_true, List.all_eq_true] at h
  exact h.2

theorem plainChar_ne {c d : Char} (h : plainChar c = true)
    (hd : plainChar d = false) : c ≠ d := by
  intro he
  rw [he, hd] at h
  cases h

theorem plainChar_not_ws {c : Char} (h : plainChar c = true) :
    isWsChar c = false := by
  rw [isWsChar]
  have h1 : c ≠ ' ' := plainChar_ne h (by decide)
  have h2 : c ≠ '\n' := plainChar_ne h (by decide)
  have h3 : c ≠ '\t' := plainChar_ne h (by decide)
  have h4 : c ≠ '\r' := plainChar_ne h (by decide)
  simp [h1, h2, h3, h4]

theorem dropWhile_eq_self_of_not_ws {cs : List Char}
    (h : ∀ c ∈ cs, isWsChar c = false) : cs.dropWhile isWsChar = cs := by
  cases cs with
  | nil => rfl
  | cons c rest =>
    rw [List.dropWhile_cons, h c (List.mem_cons_self c rest)]
    simp

theorem trimChars_eq_self_of_plain {cs : List Char}
    (h : ∀ c ∈ cs, plainChar c = true) : trimChars cs = cs := by
  have hw : ∀ c ∈ cs, isWsChar c = false := fun c hc => plainChar_not_ws (h c hc)
  rw [trimChars, dropWhile_eq_self_of_not_ws hw,
    dropWhile_eq_self_of_not_ws (fun c hc => hw c (List.mem_reverse.mp hc)),
    List.reverse_reverse]

theorem splitLines_no_newline {cs : List Char}
    (h : ∀ c ∈ cs, c ≠ '\n') : splitLines cs = [cs] := by
  induction cs with
  | nil => rfl
  | cons c rest ih =>
    rw [splitLines, if_neg (h c (List.mem_cons_self c rest))]
    rw [ih fun d hd => h d (List.mem_cons_of_mem c hd)]

theorem contains_eq_false_of_plain {cs : List Char}
    (h : ∀ c ∈ cs, plainChar c = true) : cs.contains ':' = false := by
  cases he : cs.contains ':' with
  | false => rfl
  | true =>
    rw [List.contains, List.elem_iff] at he
    exact absurd rfl (plainChar_ne (h ':' he) (by decide)).symm

/-- A bare-scalar document YAML-parses to its scalar value. -/
theorem yamlSafeLoad_bare {s : String} (h : isBareScalar s = true) :
    yamlSafeLoad s = .ok (some (bareValue s)) := by
  rw [isBareScalar, Bool.and_eq_true, Bool.or_eq_true, Bool.not_eq_true'] at h
  obtain ⟨hword, hnull⟩ := h
  have hplain : ∀ c ∈ trimChars s.data, plainChar c = true := by
    rcases hword with hint | hpw
    · exact all_plainChar_of_intLit hint
    · exact all_plainChar_of_plainWord hpw
  have hne : trimChars s.data ≠ [] := by
    rcases hword with hint | hpw
    · intro he
      rw [he] at hint
      cases hint
    · rw [plainWord, Bool.and_eq_true] at hpw
      intro he
      rw [he] at hpw
      simp at hpw
  rw [yamlSafeLoad]
  have hemp : (trimChars s.data).isEmpty = false := by
    cases hcs : trimChars s.data with
    | nil => exact absurd hcs hne
    | cons c rest => rw [List.isEmpty_cons]
  rw [hemp]
  simp only [Bool.false_eq_true, if_false, hnull]
  obtain ⟨c, rest, hcs⟩ : ∃ c rest, trimChars s.data = c :: rest := by
    cases hcs : trimChars s.data with
    | nil => exact absurd hcs hne
    | cons c rest => exact ⟨c, rest, rfl⟩
  have hcplain : plainChar c = true := hplain c (hcs ▸ List.mem_cons_self c rest)
  have hbr : c ≠ '[' := plainChar_ne hcplain (by decide)
  have hbc : c ≠ '{' := plainChar_ne hcplain (by decide)
  have hhead : ((trimChars s.data).head? = some '[' ||
      (trimChars s.data).head? = some '{') = false := by
    rw [hcs]
    simp [hbr, hbc]
  rw [hhead]
  simp only [Bool.false_eq_true, if_false]
  have hlines : ((splitLines (trimChars s.data)).map trimChars).filter
      (fun l => !l.isEmpty) = [trimChars s.data] := by
    rw [splitLines_no_newline
      (fun d hd => plainChar_ne (hplain d hd) (by decide)),
      List.map_cons, List.map_nil, trimChars_eq_self_of_plain hplain]
    simp [List.filter, hemp]
  rw [hlines]
  have hcontains : ([trimChars s.data].all fun l => l.contains ':') = false := by
    rw [List.all_cons, List.all_nil, Bool.and_true]
    exact contains_eq_false_of_plain hplain
  rw [hcontains]
  simp only [Bool.false_eq_true, if_false]
  rw [bareValue, yamlScalarTok]
  by_cases ht : yamlTrueWord (trimChars s.data) = true
  · rw [ht]
    simp
  · rw [Bool.not_eq_true] at ht
    rw [ht]
    simp only [Bool.false_eq_true, if_false]
    by_cases hf : yamlFalseWord (trimChars s.data) = true
    · rw [hf]
      simp
    · rw [Bool.not_eq_true] at hf
      rw [hf]
      simp only [Bool.false_eq_true, if_false]
      by_cases hi : intLit (trimChars s.data) = true
      · rw [hi]
        simp
      · rw [Bool.not_eq_true] at hi
        rw [hi]
        simp only [Bool.false_eq_true, if_false]
        have hpw : plainWord (trimChars s.data) = true := by
          rcases hword with hint | hpw
          · rw [hi] at hint
            cases hint
          · exact hpw
        rw [hpw]
        simp

/-! ### Extension-based format resolution -/

theorem isPrefixOf_head_eq {a b : Char} {l₁ l₂ r : List Char}
    (h₁ : (a :: l₁).isPrefixOf r = true) (h₂ : (b :: l₂).isPrefixOf r = true) :
    a = b := by
  cases r with
  | nil => cases h₁
  | cons c r =>
    simp only [List.isPrefixOf_cons₂, Bool.and_eq_true, beq_iff_eq] at h₁ h₂
    rw [h₁.1, h₂.1]

theorem hasSuffix_json_not_yaml {p : List Char}
    (h : hasSuffix p ".json".data = true) :
    hasSuffix p ".yaml".data = false ∧ hasSuffix p ".yml".data = false := by
  rw [hasSuffix] at h
  have hj : (".json".data.reverse) = 'n' :: ['o', 's', 'j', '.'] := by decide
  rw [hj] at h
  constructor
  · cases hy : hasSuffix p ".yaml".data with
    | false => rfl
    | true =>
      rw [hasSuffix] at hy
      have hl : (".yaml".data.reverse) = 'l' :: ['m', 'a', 'y', '.'] := by decide
      rw [hl] at hy
      exact absurd (isPrefixOf_head_eq h hy) (by decide)
  · cases hy : hasSuffix p ".yml".data with
    | false => rfl
    | true =>
      rw [hasSuffix] at hy
      have hl : (".yml".data.reverse) = 'l' :: ['m', 'y', '.'] := by decide
      rw [hl] at hy
      exact absurd (isPrefixOf_head_eq h hy) (by decide)

theorem resolveFormat_json {path : String}
    (h : hasSuffix (path.data.map lowerChar) ".json".data = true) :
    resolveFormat path none = Fmt.json := by
  obtain ⟨hy, hm⟩ := hasSuffix_json_not_yaml h
  simp [resolveFormat, hy, hm, h]

/-! ### The claims -/

/-- C1, counterexample: with no explicit format hint and a `.json`-suffixed
baseline name, the document `"a: 1"` — valid YAML (it parses to a mapping,
and the Auto-hinted `format_output` accepts it) but invalid JSON — does NOT
parse successfully in `load_baseline`: there is no cross-format fallback, so
the claimed behaviour is false at this input. -/
theorem C1_counterexample :
    load_baseline "baseline.json" none (some "a: 1") = none ∧
    yamlSafeLoad "a: 1" = Except.ok (some (Value.dict [("a", Value.int 1)])) ∧
    jsonLoads "a: 1" = Except.error () ∧
    format_output "a: 1" none = some (Value.dict [("a", Value.int 1)]) := by
  refine ⟨by decide, by decide, by decide, by decide⟩

/-- C1, amended: when no explicit format hint is given and the (lowercased)
baseline source name ends in `.json`, `load_baseline` parses the document
strictly as JSON — the result is exactly the JSON parse with errors
collapsed to `None`, with no YAML fallback, so a valid-YAML-but-invalid-JSON
document fails to load. -/
theorem C1_no_fallback (path content : String)
    (h : hasSuffix (path.data.map lowerChar) ".json".data = true) :
    load_baseline path none (some content) = collapse (jsonLoads content) := by
  simp [load_baseline, resolveFormat_json h]

/-- Witness for C1: the amended statement at the concrete input
`path = "baseline.json"`, `content = "a: 1"`. -/
theorem C1_witness :
    load_baseline "baseline.json" none (some "a: 1") =
      collapse (jsonLoads "a: 1") :=
  C1_no_fallback "baseline.json" "a: 1" (by decide)

/-- C2, counterexample: a cycle in which the command output is obtained
(`"["`) and the baseline fails to load (missing file, `content = none`)
aborts with the current-configuration parse failure, not with the
baseline-load error: the parse of the command output happens before
`load_baseline` is ever called. -/
theorem C2_counterexample :
    load_baseline "baseline.yaml" none none = none ∧
    (check_configuration (some "[") "baseline.yaml" none none none).1 =
      CycleResult.currentParseFailed ∧
    CycleResult.currentParseFailed ≠ CycleResult.baselineLoadFailed := by
  refine ⟨rfl, by decide, by decide⟩

/-- C2, amended: in every check cycle in which the command output text is
obtained and parses successfully but the baseline fails to load (missing
file, unreachable URL, or unparseable baseline text — all of which make
`load_baseline` return `None`), the cycle fails with the baseline-load
error and the diff computation is never reached. -/
theorem C2_baseline_error (s : String) (v : Value) (path : String)
    (out : Option String) (fmt : Option Fmt) (bc : Option String)
    (hp : format_output s fmt = some v)
    (hb : load_baseline path fmt bc = none) :
    check_configuration (some s) path out fmt bc =
      (CycleResult.baselineLoadFailed, ⟨true, true, false, false⟩) := by
  simp [check_configuration, hp, hb]

/-- Witness for C2: the amended statement at the concrete inputs
`s = "a: 1"` (parses), `bc = none` (baseline missing). -/
theorem C2_witness :
    check_configuration (some "a: 1") "baseline.yaml" none none none =
      (CycleResult.baselineLoadFailed, ⟨true, true, false, false⟩) :=
  C2_baseline_error "a: 1" (Value.dict [("a", Value.int 1)]) "baseline.yaml"
    none none none (by decide) rfl

/-- C3: when the external command fails (nonzero return code, so
`run_command` yields no output), the cycle fails with the command-execution
error and returns immediately: the trace records that the parser was never
invoked on either document, the baseline was never loaded, no diff was
computed and nothing was saved. -/
theorem C3_command_short_circuit (rc : Int) (out : String) (path : String)
    (o : Option String) (fmt : Option Fmt) (bc : Option String) (h : rc ≠ 0) :
    check_configuration (run_command rc out) path o fmt bc =
      (CycleResult.commandFailed, ⟨false, false, false, false⟩) := by
  rw [run_command, if_neg h]
  rfl

/-- Witness for C3: a failing command (`returncode = 1`). -/
theorem C3_witness :
    check_configuration (run_command 1 "ignored") "baseline.yaml" none none
      (some "a: 1") = (CycleResult.commandFailed, ⟨false, false, false, false⟩) :=
  C3_command_short_circuit 1 "ignored" "baseline.yaml" none none
    (some "a: 1") (by decide)

/-- C4: with an explicit `yaml` or `json` format hint, both `format_output`
and `load_baseline` parse strictly in that one format — the result is
exactly that parser's outcome with errors collapsed to `None` — and
malformed input in the hinted format fails even when the other format would
accept it (`"a: 1"` is valid YAML yet fails under the `json` hint; `"["`
fails under the `yaml` hint): there is never a silent fallback. -/
theorem C4_explicit_format_strict (s : String) (p : String) :
    format_output s (some Fmt.yaml) = collapse (yamlSafeLoad s) ∧
    format_output s (some Fmt.json) = collapse (jsonLoads s) ∧
    load_baseline p (some Fmt.yaml) (some s) = collapse (yamlSafeLoad s) ∧
    load_baseline p (some Fmt.json) (some s) = collapse (jsonLoads s) ∧
    format_output "a: 1" (some Fmt.json) = none ∧
    yamlSafeLoad "a: 1" = Except.ok (some (Value.dict [("a", Value.int 1)])) ∧
    format_output "[" (some Fmt.yaml) = none := by
  refine ⟨rfl, rfl, rfl, rfl, by decide, by decide, by decide⟩

/-- C5: comparing two well-formed trees that are structurally identical
except for the order of items inside sequences yields an empty difference:
sequence order is ignored and no drift is reported. -/
theorem C5_order_insensitive (a b : Value) (ha : wfB a = true)
    (hb : wfB b = true) (h : PermEq a b) :
    compare_configurations (some a) (some b) = some [] := by
  simp only [compare_configurations, deepDiff]
  rw [compareNodes_nil_of_canon_eq [] a b ha hb (permEq_canon h)]

/-- Witness for C5: `compare({"items": [1, 2, 3]}, {"items": [3, 2, 1]})`
is empty. -/
theorem C5_witness :
    compare_configurations
      (some (Value.dict [("items", Value.list [Value.int 1, Value.int 2, Value.int 3])]))
      (some (Value.dict [("items", Value.list [Value.int 3, Value.int 2, Value.int 1])])) =
      some [] :=
  C5_order_insensitive _ _
    (by simp [wfB_dict_eq, wfB_list_eq, keysNodup, wfB_scalar_eq.2.1])
    (by simp [wfB_dict_eq, wfB_list_eq, keysNodup, wfB_scalar_eq.2.1])
    (PermEq.dict (PermEqEntries.cons
      (PermEq.list (permEqList_of_perm (by decide))) PermEqEntries.nil))

/-- C6: comparing any well-formed tree against itself yields an empty
difference (reflexivity of the comparison). -/
theorem C6_compare_reflexive (T : Value) (h : wfB T = true) :
    compare_configurations (some T) (some T) = some [] := by
  simp only [compare_configurations, deepDiff]
  rw [compareNodes_nil_of_canon_eq [] T T h h rfl]

/-- Witness for C6: reflexivity at a concrete mixed tree. -/
theorem C6_witness :
    compare_configurations
      (some (Value.dict [("a", Value.int 1),
        ("items", Value.list [Value.str "x", Value.str "y"])]))
      (some (Value.dict [("a", Value.int 1),
        ("items", Value.list [Value.str "x", Value.str "y"])])) = some [] :=
  C6_compare_reflexive _
    (by simp [wfB_dict_eq, wfB_list_eq, keysNodup, wfB_scalar_eq.2.1,
      wfB_scalar_eq.2.2])

/-- C7: the drift verdict is true exactly when the computed difference is
non-empty; a completed cycle with zero entries produces the explicit
affirmative "No configuration drift detected." message (never an empty
output), and a cycle with at least one entry reports
"Configuration drift detected!". -/
theorem C7_drift_verdict (ds : List DiffEntry) :
    (hasDrift ds = true ↔ ds ≠ []) ∧
    (cycleMessage (CycleResult.completed ds) = "No configuration drift detected." ↔
      ds = []) ∧
    (cycleMessage (CycleResult.completed ds) = "Configuration drift detected!" ↔
      ds ≠ []) ∧
    cycleMessage (CycleResult.completed ds) ≠ "" := by
  cases ds with
  | nil => decide
  | cons d ds =>
    have h1 : ("Configuration drift detected!" : String) ≠
        "No configuration drift detected." := by decide
    have h2 : ("Configuration drift detected!" : String) ≠ "" := by decide
    simp [hasDrift, cycleMessage, h1.symm, h2]

/-- C8, counterexample: the texts `"null"`, `"~"` and `""` are all valid
YAML documents whose parsed value is null, and one of them (`"null"`) is a
bare plain word; parsing them without a format hint returns `None`, and the
check cycle aborts with a parse failure even though the baseline itself is
fine — so a bare scalar is not always accepted. -/
theorem C8_counterexample :
    format_output "null" none = none ∧
    format_output "~" none = none ∧
    format_output "" none = none ∧
    (check_configuration (some "null") "baseline.yaml" none none
      (some "a: 1")).1 = CycleResult.currentParseFailed := by
  refine ⟨by decide, by decide, by decide, by decide⟩

/-- C8, amended: every bare-scalar text (a plain word or a number, after
stripping) other than YAML's null spellings parses successfully without a
format hint, yielding exactly that scalar, and the check cycle never
treats it as a parse failure. -/
theorem C8_bare_scalar (s : String) (path : String) (out : Option String)
    (bc : Option String) (h : isBareScalar s = true) :
    format_output s none = some (bareValue s) ∧
    (check_configuration (some s) path out none bc).1 ≠
      CycleResult.currentParseFailed := by
  have h1 : format_output s none = some (bareValue s) := by
    simp [format_output, yamlSafeLoad_bare h]
  refine ⟨h1, ?_⟩
  cases hlb : load_baseline path none bc with
  | none => simp [check_configuration, h1, hlb]
  | some b =>
    simp only [check_configuration, h1, hlb, compare_configurations]
    split <;> simp

/-- Witness for C8: the bare word `"hello"` parses to the string scalar
`"hello"` and the cycle proceeds past the parse stage. -/
theorem C8_witness :
    format_output "hello" none = some (bareValue "hello") ∧
    (check_configuration (some "hello") "baseline.yaml" none none none).1 ≠
      CycleResult.currentParseFailed :=
  C8_bare_scalar "hello" "baseline.yaml" none none (by decide)

/-- C9: a document whose YAML parse succeeds with the null value is
indistinguishable, at the parser's interface, from a document that fails to
parse in both formats: `format_output` returns the same `None` for both,
and the whole check cycle behaves identically, aborting with the
current-configuration parse failure. -/
theorem C9_null_indistinguishable (s t : String) (path : String)
    (out : Option String) (bc : Option String)
    (hs : yamlSafeLoad s = Except.ok none)
    (ht₁ : yamlSafeLoad t = Except.error ())
    (ht₂ : jsonLoads t = Except.error ()) :
    format_output s none = none ∧
    format_output s none = format_output t none ∧
    check_configuration (some s) path out none bc =
      check_configuration (some t) path out none bc ∧
    (check_configuration (some s) path out none bc).1 =
      CycleResult.currentParseFailed := by
  have h1 : format_output s none = none := by simp [format_output, hs]
  have h2 : format_output t none = none := by simp [format_output, ht₁, ht₂]
  refine ⟨h1, by rw [h1, h2], ?_, ?_⟩
  · simp [check_configuration, h1, h2]
  · simp [check_configuration, h1]

/-- Witness for C9: the null document `"null"` and the doubly-unparseable
document `"["`. -/
theorem C9_witness :
    format_output "null" none = none ∧
    format_output "null" none = format_output "[" none ∧
    check_configuration (some "null") "baseline.yaml" none none none =
      check_configuration (some "[") "baseline.yaml" none none none ∧
    (check_configuration (some "null") "baseline.yaml" none none none).1 =
      CycleResult.currentParseFailed :=
  C9_null_indistinguishable "null" "[" "baseline.yaml" none none
    (by decide) (by decide) (by decide)

/-- C10: the differences file is written exactly when the computed
difference is non-empty and an output path was supplied: the trace records
a `save_differences` invocation if and only if the cycle completed with a
non-empty difference sequence and a configured output path; in every other
cycle the save operation is never invoked. -/
theorem C10_save_frame (cmd : Option String) (path : String)
    (out : Option String) (fmt : Option Fmt) (bc : Option String) :
    (check_configuration cmd path out fmt bc).2.savedOutput = true ↔
      (∃ ds, (check_configuration cmd path out fmt bc).1 =
        CycleResult.completed ds ∧ ds ≠ [] ∧ out ≠ none) := by
  cases cmd with
  | none => simp [check_configuration]
  | some s =>
    cases hfo : format_output s fmt with
    | none => simp [check_configuration, hfo]
    | some cur =>
      cases hlb : load_baseline path fmt bc with
      | none => simp [check_configuration, hlb, hfo]
      | some base =>
        simp only [check_configuration, hfo, hlb, compare_configurations]
        by_cases hd : (deepDiff base cur).isEmpty
        · rw [if_pos hd]
          simp [List.isEmpty_iff.mp hd]
        · rw [if_neg hd]
          have hne : deepDiff base cur ≠ [] := by
            intro he
            rw [he] at hd
            exact hd rfl
          simp [hne, Option.isSome_iff_ne_none]

end ConfigDrift
